import Mathlib

/-!
Verification of the symbolic-algebra helper module `bezier._symbolic`.

The module converts floating-point node arrays to exact rational matrices,
builds Bernstein / barycentric basis weights, assembles parametric
polynomials, and implicitizes them through resultants.  All algebraic work
is delegated to sympy; we model it at two levels:

* a semantic level, where a sympy polynomial expression in the parameter
  symbol `s` is represented by its (little-endian) coefficient list over `ℚ`,
  a bivariate expression in `s, t` by its evaluation function `ℚ → ℚ → ℚ`,
  `sympy.resultant` by the determinant of the Sylvester matrix, and
  `simplify` / `factor` by the identity (they do not change the value of an
  expression);
* a structural level (namespace `Sym`), where sympy expressions are
  expression trees that record exactly which sympy operations the source
  applies to which arguments, including `resultant` and `factor` nodes and
  the `require_sympy` availability guard.  sympy symbols are interned by
  name, so a symbol is modelled by its name string.

Python `int` is modelled by `ℤ`, Python `range` by `pyRange`,
`sympy.binomial` by the generalized falling-factorial binomial `binomZ`,
and a finite IEEE-754 binary64 value by an explicit pair
mantissa · 2 ^ exponent (`Binary64`), whose exact rational value is
`Binary64.toRat` (this is the rational that `sympy.Rational` reconstructs
from a float, bit-exactly, rather than a decimal approximation).
-/

/-- Errors raised by the module: `OSError` from the `require_sympy` guard,
`ValueError` with the actual rank from `to_symbolic`, a sympy `ShapeError`
from a mismatched matrix product, and the `ValueError` raised when
tuple-unpacking a polynomial vector of the wrong length. -/
inductive SymErr : Type where
  | engineUnavailable : SymErr
  | invalidShape : ℕ → SymErr
  | shapeMismatch : SymErr
  | unpackMismatch : SymErr
deriving DecidableEq

/-- A finite IEEE-754 binary64 value, written as mantissa · 2 ^ exponent.
Every finite double is such a dyadic rational; the representation is
canonical when the mantissa is odd (or the value is zero with exponent 0). -/
structure Binary64 : Type where
  mantissa : ℤ
  exponent : ℤ
deriving DecidableEq

/-- The exact rational value denoted by a binary64 value.  This is the
fraction that `sympy.Rational` builds from a Python float. -/
def Binary64.toRat (v : Binary64) : ℚ :=
  (v.mantissa : ℚ) * (2 : ℚ) ^ v.exponent

/-- A binary64 representation is canonical when its mantissa is odd, or it
is the zero value `0 · 2 ^ 0`.  Distinct canonical representations denote
distinct doubles, bit for bit. -/
def Binary64.canonical (v : Binary64) : Prop :=
  (v.mantissa = 0 ∧ v.exponent = 0) ∨ v.mantissa % 2 = 1

instance (v : Binary64) : Decidable v.canonical := by
  unfold Binary64.canonical; infer_instance

/-- A NumPy array as the module reads it: the rank reported by `ndim` and
the rows of float entries iterated by `to_symbolic` (meaningful when
`ndim = 2`). -/
structure NDArray : Type where
  ndim : ℕ
  rows : List (List Binary64)
deriving DecidableEq

/-- Python `range(n)` for an arbitrary integer bound: the integers
`0, 1, ..., n-1`, empty when `n ≤ 0`. -/
def pyRange (n : ℤ) : List ℤ :=
  (List.range n.toNat).map (fun (i : ℕ) => (i : ℤ))

/-- The value of `sympy.binomial(n, k)` for integer arguments: the falling
factorial `n (n-1) ⋯ (n-k+1) / k!` for `k ≥ 0`, and `0` for `k < 0`. -/
def binomZ (n k : ℤ) : ℚ :=
  if k < 0 then 0
  else ((List.range k.toNat).map (fun (i : ℕ) => (n : ℚ) - (i : ℚ))).prod
    / (k.toNat.factorial : ℚ)

/-! ### Coefficient-list polynomials over ℚ

A sympy polynomial expression in one symbol is represented by its
little-endian coefficient list: entry `i` is the coefficient of the `i`-th
power of the symbol. -/

/-- Horner evaluation of a coefficient list at a rational point. -/
def evalPoly (p : List ℚ) (x : ℚ) : ℚ :=
  p.foldr (fun a acc => a + x * acc) 0

/-- Coefficientwise sum of two polynomials. -/
def polyAdd : List ℚ → List ℚ → List ℚ
  | [], q => q
  | p, [] => p
  | a :: p, b :: q => (a + b) :: polyAdd p q

/-- Coefficientwise negation of a polynomial. -/
def polyNeg (p : List ℚ) : List ℚ :=
  p.map (fun a => -a)

/-- Difference of two polynomials. -/
def polySub (p q : List ℚ) : List ℚ :=
  polyAdd p (polyNeg q)

/-- Product of two polynomials (Cauchy product of coefficient lists). -/
def polyMul : List ℚ → List ℚ → List ℚ
  | [], _ => []
  | a :: p, q => polyAdd (q.map (fun b => a * b)) (0 :: polyMul p q)

/-- Power of a polynomial with a natural-number exponent. -/
def polyPow (p : List ℚ) : ℕ → List ℚ
  | 0 => [1]
  | n + 1 => polyMul p (polyPow p n)

/-- Strip trailing zero coefficients, so that a nonempty result has a
nonzero leading coefficient.  This mirrors sympy reading off the true
degree of a polynomial expression. -/
def normPoly (p : List ℚ) : List ℚ :=
  p.foldr (fun a acc => if a = 0 ∧ acc = [] then [] else a :: acc) []

/-- Coefficient of an integer power, zero outside the list. -/
def coeffAt (p : List ℚ) (k : ℤ) : ℚ :=
  if k < 0 then 0 else p.getD k.toNat 0

theorem evalPoly_nil (x : ℚ) : evalPoly [] x = 0 := rfl

theorem evalPoly_cons (a : ℚ) (p : List ℚ) (x : ℚ) :
    evalPoly (a :: p) x = a + x * evalPoly p x := rfl

theorem evalPoly_polyAdd (p q : List ℚ) (x : ℚ) :
    evalPoly (polyAdd p q) x = evalPoly p x + evalPoly q x := by
  induction p generalizing q with
  | nil => simp [polyAdd, evalPoly_nil]
  | cons a p ih =>
    cases q with
    | nil => simp [polyAdd, evalPoly_nil]
    | cons b q =>
      simp only [polyAdd, evalPoly_cons, ih]
      ring

theorem evalPoly_polyNeg (p : List ℚ) (x : ℚ) :
    evalPoly (polyNeg p) x = -evalPoly p x := by
  induction p with
  | nil => simp [polyNeg, evalPoly_nil]
  | cons a p ih =>
    simp only [polyNeg, List.map_cons, evalPoly_cons] at *
    rw [ih]; ring

theorem evalPoly_polySub (p q : List ℚ) (x : ℚ) :
    evalPoly (polySub p q) x = evalPoly p x - evalPoly q x := by
  rw [polySub, evalPoly_polyAdd, evalPoly_polyNeg]; ring

theorem evalPoly_map_mul (a : ℚ) (q : List ℚ) (x : ℚ) :
    evalPoly (q.map (fun b => a * b)) x = a * evalPoly q x := by
  induction q with
  | nil => simp [evalPoly_nil]
  | cons b q ih =>
    simp only [List.map_cons, evalPoly_cons, ih]
    ring

theorem evalPoly_polyMul (p q : List ℚ) (x : ℚ) :
    evalPoly (polyMul p q) x = evalPoly p x * evalPoly q x := by
  induction p with
  | nil => simp [polyMul, evalPoly_nil]
  | cons a p ih =>
    simp only [polyMul, evalPoly_polyAdd, evalPoly_map_mul, evalPoly_cons, ih]
    ring

theorem evalPoly_polyPow (p : List ℚ) (n : ℕ) (x : ℚ) :
    evalPoly (polyPow p n) x = evalPoly p x ^ n := by
  induction n with
  | zero => simp [polyPow, evalPoly_cons, evalPoly_nil]
  | succ n ih =>
    simp only [polyPow, evalPoly_polyMul, ih]
    ring

theorem evalPoly_X (x : ℚ) : evalPoly [0, 1] x = x := by
  simp [evalPoly_cons, evalPoly_nil]

theorem evalPoly_const (c x : ℚ) : evalPoly [c] x = c := by
  simp [evalPoly_cons, evalPoly_nil]

theorem normPoly_nil : normPoly [] = [] := rfl

theorem normPoly_cons (a : ℚ) (p : List ℚ) :
    normPoly (a :: p) =
      if a = 0 ∧ normPoly p = [] then [] else a :: normPoly p := rfl

theorem evalPoly_eq_zero_of_normPoly_nil (p : List ℚ) (x : ℚ)
    (h : normPoly p = []) : evalPoly p x = 0 := by
  induction p with
  | nil => rfl
  | cons a p ih =>
    rw [normPoly_cons] at h
    by_cases ha : a = 0 ∧ normPoly p = []
    · rw [evalPoly_cons, ha.1, ih ha.2]; ring
    · simp [ha] at h

theorem evalPoly_normPoly (p : List ℚ) (x : ℚ) :
    evalPoly (normPoly p) x = evalPoly p x := by
  induction p with
  | nil => rfl
  | cons a p ih =>
    rw [normPoly_cons]
    by_cases ha : a = 0 ∧ normPoly p = []
    · rw [if_pos ha, evalPoly_nil, evalPoly_cons, ha.1,
        evalPoly_eq_zero_of_normPoly_nil p x ha.2]
      ring
    · rw [if_neg ha, evalPoly_cons, evalPoly_cons, ih]

theorem evalPoly_eq_sum_range (p : List ℚ) (x : ℚ) :
    evalPoly p x = ∑ i ∈ Finset.range p.length, p.getD i 0 * x ^ i := by
  induction p with
  | nil => simp [evalPoly_nil]
  | cons a p ih =>
    rw [evalPoly_cons, ih, List.length_cons, Finset.sum_range_succ']
    simp only [List.getD_cons_succ, List.getD_cons_zero, pow_zero, mul_one,
      pow_succ]
    rw [Finset.mul_sum]
    rw [add_comm]
    congr 1
    refine Finset.sum_congr rfl fun i _ => by ring

/-! ### Helper lemmas about `pyRange` and `binomZ` -/

theorem pyRange_natCast (m : ℕ) :
    pyRange (m : ℤ) = (List.range m).map (fun (i : ℕ) => (i : ℤ)) := by
  simp [pyRange]

theorem pyRange_nil_of_nonpos (n : ℤ) (h : n ≤ 0) : pyRange n = [] := by
  have : n.toNat = 0 := Int.toNat_of_nonpos h
  simp [pyRange, this]

theorem list_range_map_sum (f : ℕ → ℚ) (m : ℕ) :
    ((List.range m).map f).sum = ∑ i ∈ Finset.range m, f i := rfl

theorem list_range_map_sum_nat (f : ℕ → ℕ) (m : ℕ) :
    ((List.range m).map f).sum = ∑ i ∈ Finset.range m, f i := rfl

theorem prod_range_cast_sub (n k : ℕ) :
    ((List.range k).map (fun (i : ℕ) => ((n : ℤ) : ℚ) - (i : ℚ))).prod
      = (n.descFactorial k : ℚ) := by
  induction k with
  | zero => simp [Nat.descFactorial]
  | succ k ih =>
    rw [List.range_succ, List.map_append, List.prod_append, ih]
    have hsing :
        (List.map (fun (i : ℕ) => ((n : ℤ) : ℚ) - (i : ℚ)) [k]).prod
          = ((n : ℚ) - (k : ℚ)) := by
      simp
    rw [hsing]
    rcases le_or_lt (k + 1) n with h | h
    · rw [Nat.descFactorial_succ, Nat.cast_mul, Nat.cast_sub (by omega)]
      ring
    · rw [Nat.descFactorial_eq_zero_iff_lt.2 h]
      rcases Nat.lt_or_ge n k with hk | hk
      · rw [Nat.descFactorial_eq_zero_iff_lt.2 hk]
        simp
      · have hnk : n = k := by omega
        subst hnk
        push_cast
        ring

/-- For natural-number arguments, the sympy binomial agrees with
`Nat.choose`. -/
theorem binomZ_natCast (n k : ℕ) :
    binomZ (n : ℤ) (k : ℤ) = (n.choose k : ℚ) := by
  unfold binomZ
  rw [if_neg (by omega)]
  have ht : ((k : ℤ)).toNat = k := rfl
  rw [ht, prod_range_cast_sub, Nat.descFactorial_eq_factorial_mul_choose]
  have hk : (k.factorial : ℚ) ≠ 0 := by
    exact_mod_cast Nat.factorial_ne_zero k
  push_cast
  field_simp

/-! ### The semantic layer: the module's functions on exact values

Each public function of `bezier._symbolic` is embedded here on the exact
values that its sympy expressions denote.  The `require_sympy` decorator is
modelled separately at the structural layer (`Sym` namespace), so these
definitions are the decorated bodies. -/

/-- Convert a float array to the matrix of the exact rational values of its
entries (`to_symbolic`).  A rank other than 2 raises `ValueError` carrying
the actual rank. -/
def to_symbolic (nodes : NDArray) : Except SymErr (List (List ℚ)) :=
  if nodes.ndim ≠ 2 then .error (.invalidShape nodes.ndim)
  else .ok (nodes.rows.map (fun row => row.map Binary64.toRat))

/-- De Casteljau weights for a curve (`curve_weights`): for each `k` in
`range(degree + 1)` the polynomial
`binomial(degree, k) * s ** k * (1 - s) ** (degree - k)`, as a coefficient
list in the symbol `s`. -/
def curve_weights (degree : ℤ) : List (List ℚ) :=
  (pyRange (degree + 1)).map (fun k =>
    polyMul (polyMul [binomZ degree k] (polyPow [0, 1] k.toNat))
      (polyPow (polySub [1] [0, 1]) ((degree - k).toNat)))

/-- Product of the exact node matrix with a column vector of weight
polynomials.  sympy raises a `ShapeError` when the column counts do not
match. -/
def matVecMulQ (m : List (List ℚ)) (w : List (List ℚ)) :
    Except SymErr (List (List ℚ)) :=
  if m.all (fun row => row.length = w.length) then
    .ok (m.map (fun row =>
      (List.zipWith (fun c p => polyMul [c] p) row w).foldl polyAdd []))
  else .error .shapeMismatch

/-- Curve polynomial assembly (`curve_as_polynomial`): convert the nodes,
multiply by the curve weights, then `simplify` and `factor` each entry
(both are the identity on the polynomial an expression denotes). -/
def curve_as_polynomial (nodes : NDArray) (degree : ℤ) :
    Except SymErr (List (List ℚ)) := do
  let nodes_sym ← to_symbolic nodes
  matVecMulQ nodes_sym (curve_weights degree)

/-- De Casteljau weights for a surface (`surface_weights`): barycentric
coordinates `λ1 = 1 - s - t`, `λ2 = s`, `λ3 = t`; for `k` in
`range(degree + 1)` and `j` in `range(degree - k + 1)`, with
`i = degree - j - k`, the term
`binomial(degree, k) * binomial(degree - k, j) * λ1^i * λ2^j * λ3^k`.
A bivariate expression is represented by its evaluation function. -/
def surface_weights (degree : ℤ) : List (ℚ → ℚ → ℚ) :=
  (pyRange (degree + 1)).flatMap (fun k =>
    (pyRange (degree - k + 1)).map (fun j =>
      fun s t =>
        (binomZ degree k * binomZ (degree - k) j)
          * (1 - s - t) ^ (degree - j - k).toNat
          * s ^ j.toNat * t ^ k.toNat))

/-! ### Resultants via the Sylvester matrix -/

/-- Sylvester matrix of two coefficient lists `F` (degree `m`) and `G`
(degree `n`): the `(n + m) × (n + m)` matrix whose first `n` rows are the
shifted coefficients of `F` and whose last `m` rows are the shifted
coefficients of `G`. -/
def sylvester (F G : List ℚ) (m n : ℕ) :
    Matrix (Fin (n + m)) (Fin (n + m)) ℚ :=
  Matrix.of (fun i j =>
    if (i : ℕ) < n then coeffAt F ((m : ℤ) + (i : ℕ) - (j : ℕ))
    else coeffAt G (((i : ℕ) : ℤ) - (j : ℕ)))

/-- The resultant of two univariate polynomials over ℚ, as the determinant
of their Sylvester matrix; degrees are read off after stripping leading
zeros, as sympy does. -/
def resultantQ (f g : List ℚ) : ℚ :=
  (sylvester (normPoly f) (normPoly g)
    ((normPoly f).length - 1) ((normPoly g).length - 1)).det

/-- The degree in `s` that sympy reads off an expression `p(s) - a` for an
ambient symbol `a`: the degree of `p`, or `0` for constant `p`. -/
def degS (p : List ℚ) : ℕ :=
  (normPoly p).length - 1

/-- 2D implicitization (`implicitize_2d`): the value at an ambient point
`(x₀, y₀)` of the factored resultant with respect to `s` of
`x_fn - x` and `y_fn - y`.  Because the ambient symbols occur only in the
constant coefficients (in `s`), evaluating the symbolic resultant at
`(x₀, y₀)` is the resultant of the evaluated pair, which is what is
computed here; `factor` does not change the value. -/
def implicitize_2d (x_fn y_fn : List ℚ) : ℚ → ℚ → ℚ :=
  fun x0 y0 => resultantQ (polySub x_fn [x0]) (polySub y_fn [y0])

/-- Curve implicitization (`implicitize_curve`): assemble the curve
polynomial, tuple-unpack its two components (raising when the vector does
not have exactly two entries), and implicitize. -/
def implicitize_curve (nodes : NDArray) (degree : ℤ) :
    Except SymErr (ℚ → ℚ → ℚ) :=
  match curve_as_polynomial nodes degree with
  | .error e => .error e
  | .ok b_polynomial =>
    match b_polynomial with
    | [x_fn, y_fn] => .ok (implicitize_2d x_fn y_fn)
    | _ => .error .unpackMismatch

/-! ### The common-root property of the Sylvester determinant -/

theorem coeffAt_natCast (p : List ℚ) (j : ℕ) :
    coeffAt p (j : ℤ) = p.getD j 0 := by
  unfold coeffAt
  rw [if_neg (by omega)]
  norm_num

theorem coeffAt_of_neg (p : List ℚ) (k : ℤ) (h : k < 0) : coeffAt p k = 0 := by
  unfold coeffAt
  rw [if_pos h]

/-- Row sum of a shifted coefficient vector against the vector of powers of
`σ`: it evaluates to a power of `σ` times the polynomial value at `σ`. -/
theorem sylvester_row_sum (p : List ℚ) (σ : ℚ) (c N : ℕ) (hc : c ≤ N)
    (hp : p.length ≤ c + 1) :
    ∑ j ∈ Finset.range (N + 1), coeffAt p ((c : ℤ) - (j : ℤ)) * σ ^ (N - j)
      = σ ^ (N - c) * evalPoly p σ := by
  have h1 : ∑ j ∈ Finset.range (N + 1),
        coeffAt p ((c : ℤ) - (j : ℤ)) * σ ^ (N - j)
      = ∑ j ∈ Finset.range (c + 1),
        coeffAt p ((c : ℤ) - (j : ℤ)) * σ ^ (N - j) := by
    refine (Finset.sum_subset (Finset.range_subset.2 (by omega))
      fun x hx hnx => ?_).symm
    simp only [Finset.mem_range] at hx hnx
    rw [coeffAt_of_neg _ _ (by omega), zero_mul]
  rw [h1, ← Finset.sum_range_reflect]
  have h3 : ∀ j ∈ Finset.range (c + 1),
      coeffAt p ((c : ℤ) - ((c + 1 - 1 - j : ℕ) : ℤ)) * σ ^ (N - (c + 1 - 1 - j))
        = σ ^ (N - c) * (p.getD j 0 * σ ^ j) := by
    intro j hj
    simp only [Finset.mem_range] at hj
    have e1 : (c : ℤ) - ((c + 1 - 1 - j : ℕ) : ℤ) = (j : ℤ) := by omega
    have e2 : N - (c + 1 - 1 - j) = (N - c) + j := by omega
    rw [e1, e2, coeffAt_natCast, pow_add]
    ring
  rw [Finset.sum_congr rfl h3, ← Finset.mul_sum]
  congr 1
  rw [evalPoly_eq_sum_range]
  refine (Finset.sum_subset (Finset.range_subset.2 hp) fun x hx hnx => ?_).symm
  simp only [Finset.mem_range] at hnx
  rw [List.getD_eq_default _ _ (by omega), zero_mul]

/-- If two coefficient lists share a root and at least one of the declared
degrees is positive, the Sylvester determinant vanishes: the vector of
powers of the common root is a nonzero kernel vector. -/
theorem sylvester_det_eq_zero (F G : List ℚ) (m n : ℕ) (σ : ℚ)
    (hFσ : evalPoly F σ = 0) (hGσ : evalPoly G σ = 0)
    (hFlen : F.length ≤ m + 1) (hGlen : G.length ≤ n + 1)
    (hnm : 1 ≤ n + m) :
    (sylvester F G m n).det = 0 := by
  obtain ⟨N, hN⟩ : ∃ N, n + m = N + 1 := ⟨n + m - 1, by omega⟩
  set v : Fin (n + m) → ℚ := fun j => σ ^ (N - (j : ℕ)) with hv
  have hvne : v ≠ 0 := by
    intro h0
    have hlast := congrFun h0 ⟨N, by omega⟩
    simp only [hv, Pi.zero_apply] at hlast
    rw [Nat.sub_self, pow_zero] at hlast
    norm_num at hlast
  have hmul : (sylvester F G m n).mulVec v = 0 := by
    funext i
    simp only [Matrix.mulVec, Matrix.dotProduct, Pi.zero_apply]
    by_cases hi : (i : ℕ) < n
    · have hrow : ∀ j : Fin (n + m),
          sylvester F G m n i j * v j
            = coeffAt F (((m + (i : ℕ) : ℕ) : ℤ) - ((j : ℕ) : ℤ))
                * σ ^ (N - (j : ℕ)) := by
        intro j
        have harg : (m : ℤ) + ((i : ℕ) : ℤ) - ((j : ℕ) : ℤ)
            = ((m + (i : ℕ) : ℕ) : ℤ) - ((j : ℕ) : ℤ) := by
          push_cast
          ring
        simp only [sylvester, Matrix.of_apply, if_pos hi, hv, harg]
      rw [Finset.sum_congr rfl (fun j _ => hrow j)]
      rw [show (∑ j : Fin (n + m),
            coeffAt F (((m + (i : ℕ) : ℕ) : ℤ) - ((j : ℕ) : ℤ))
              * σ ^ (N - (j : ℕ)))
          = ∑ j ∈ Finset.range (n + m),
            coeffAt F (((m + (i : ℕ) : ℕ) : ℤ) - (j : ℤ)) * σ ^ (N - j)
        from Fin.sum_univ_eq_sum_range
          (fun t => coeffAt F (((m + (i : ℕ) : ℕ) : ℤ) - (t : ℤ))
            * σ ^ (N - t)) (n + m)]
      obtain ⟨iv, hiv, hivlt⟩ : ∃ iv : ℕ, (i : ℕ) = iv ∧ iv < n :=
        ⟨(i : ℕ), rfl, hi⟩
      rw [hiv, hN,
        sylvester_row_sum F σ (m + iv) N (by omega) (by omega),
        hFσ, mul_zero]
    · have hrow : ∀ j : Fin (n + m),
          sylvester F G m n i j * v j
            = coeffAt G ((((i : ℕ) : ℕ) : ℤ) - ((j : ℕ) : ℤ))
                * σ ^ (N - (j : ℕ)) := by
        intro j
        simp only [sylvester, Matrix.of_apply, if_neg hi, hv]
      rw [Finset.sum_congr rfl (fun j _ => hrow j)]
      rw [show (∑ j : Fin (n + m),
            coeffAt G ((((i : ℕ) : ℕ) : ℤ) - ((j : ℕ) : ℤ))
              * σ ^ (N - (j : ℕ)))
          = ∑ j ∈ Finset.range (n + m),
            coeffAt G ((((i : ℕ) : ℕ) : ℤ) - (j : ℤ)) * σ ^ (N - j)
        from Fin.sum_univ_eq_sum_range
          (fun t => coeffAt G ((((i : ℕ) : ℕ) : ℤ) - (t : ℤ))
            * σ ^ (N - t)) (n + m)]
      have hin : (i : ℕ) < n + m := i.isLt
      obtain ⟨iv, hiv, hivge, hivlt⟩ :
          ∃ iv : ℕ, (i : ℕ) = iv ∧ n ≤ iv ∧ iv < n + m :=
        ⟨(i : ℕ), rfl, by omega, hin⟩
      rw [hiv, hN,
        sylvester_row_sum G σ iv N (by omega) (by omega),
        hGσ, mul_zero]
  exact Matrix.exists_mulVec_eq_zero_iff.mp ⟨v, hvne, hmul⟩

theorem polyAdd_nil_right (p : List ℚ) : polyAdd p [] = p := by
  cases p <;> rfl

theorem polySub_cons_const (a c : ℚ) (rest : List ℚ) :
    polySub (a :: rest) [c] = (a - c) :: rest := by
  show polyAdd (a :: rest) (polyNeg [c]) = (a - c) :: rest
  simp only [polyNeg, List.map_cons, List.map_nil, polyAdd, polyAdd_nil_right,
    sub_eq_add_neg]

/-- Subtracting a constant from a polynomial of positive degree preserves
the degree. -/
theorem normPoly_polySub_const_length (p : List ℚ) (c : ℚ)
    (hp : 2 ≤ (normPoly p).length) :
    (normPoly (polySub p [c])).length = (normPoly p).length := by
  cases p with
  | nil => simp [normPoly_nil] at hp
  | cons a rest =>
    have hrest : normPoly rest ≠ [] := by
      intro h0
      rw [normPoly_cons, h0] at hp
      by_cases ha : a = 0 <;> simp [ha] at hp
    rw [polySub_cons_const, normPoly_cons, normPoly_cons,
      if_neg (fun hcon => hrest hcon.2), if_neg (fun hcon => hrest hcon.2)]
    simp

/-- Vanishing of the resultant at a common root, in terms of the module's
`resultantQ`. -/
theorem resultantQ_eq_zero_of_common_root (f g : List ℚ) (σ : ℚ)
    (hf : evalPoly f σ = 0) (hg : evalPoly g σ = 0)
    (hdim : 1 ≤ (normPoly f).length - 1 + ((normPoly g).length - 1)) :
    resultantQ f g = 0 := by
  unfold resultantQ
  apply sylvester_det_eq_zero _ _ _ _ σ
  · rw [evalPoly_normPoly]; exact hf
  · rw [evalPoly_normPoly]; exact hg
  · omega
  · omega
  · omega

/-! ### Claim C1 -/

/-- C1 (amended): `implicitize_2d(x_fn, y_fn, s)` returns the factored
resultant with respect to `s` of `(x_fn - x)` and `(y_fn - y)`, and —
provided at least one of `x_fn`, `y_fn` has positive degree in `s` — the
returned polynomial vanishes at every point of the traced curve:
`f(x_fn(σ), y_fn(σ)) = 0` for every parameter value `σ`.  The converse
direction of the original claim (`f(x, y) = 0` only where `(x, y)` is on
the traced curve) does not hold over the rationals and is dropped. -/
theorem C1_implicitize_2d_vanishes_on_curve (x_fn y_fn : List ℚ)
    (h : 1 ≤ degS x_fn + degS y_fn) (σ : ℚ) :
    implicitize_2d x_fn y_fn (evalPoly x_fn σ) (evalPoly y_fn σ) = 0 := by
  unfold implicitize_2d
  apply resultantQ_eq_zero_of_common_root _ _ σ
  · rw [evalPoly_polySub, evalPoly_const, sub_self]
  · rw [evalPoly_polySub, evalPoly_const, sub_self]
  · unfold degS at h
    rcases (by omega :
        2 ≤ (normPoly x_fn).length ∨ 2 ≤ (normPoly y_fn).length) with hx | hx
    · rw [normPoly_polySub_const_length x_fn _ hx]
      omega
    · rw [normPoly_polySub_const_length y_fn _ hx]
      omega

/-- C1 (counterexample): for `x_fn = y_fn = s²`, the implicit polynomial
vanishes at `(-1, -1)`, yet no parameter value traces that point, so
`f(x, y) = 0` does not imply that `(x, y)` lies on the traced curve. -/
theorem C1_counterexample :
    implicitize_2d [0, 0, 1] [0, 0, 1] (-1) (-1) = 0 ∧
      ¬ ∃ σ : ℚ, evalPoly [0, 0, 1] σ = -1 ∧ evalPoly [0, 0, 1] σ = -1 := by
  constructor
  · have hn : normPoly (polySub [0, 0, 1] [(-1 : ℚ)]) = [1, 0, 1] := by
      norm_num [normPoly, polySub, polyAdd, polyNeg]
    show resultantQ (polySub [0, 0, 1] [(-1 : ℚ)])
      (polySub [0, 0, 1] [(-1 : ℚ)]) = 0
    unfold resultantQ
    rw [hn]
    show (sylvester [1, 0, 1] [1, 0, 1] 2 2).det = 0
    have hrow : sylvester [1, 0, 1] [1, 0, 1] 2 2 (0 : Fin 4)
        = sylvester [1, 0, 1] [1, 0, 1] 2 2 (2 : Fin 4) := by
      funext j
      fin_cases j <;> decide
    exact Matrix.det_zero_of_row_eq
      (show (0 : Fin 4) ≠ (2 : Fin 4) by decide) hrow
  · rintro ⟨σ, hσ, -⟩
    have hsq : σ ^ 2 = -1 := by
      have : evalPoly [0, 0, 1] σ = σ ^ 2 := by
        simp [evalPoly]
        ring
      rw [this] at hσ
      exact hσ
    nlinarith [sq_nonneg σ]

/-- C1 (witness for the amended theorem): the line `x(s) = s, y(s) = 2s`
satisfies the degree hypothesis, and its implicit polynomial vanishes at
the traced point for `σ = 3`. -/
theorem C1_witness :
    1 ≤ degS [0, 1] + degS [0, 2] ∧
      implicitize_2d [0, 1] [0, 2]
        (evalPoly [0, 1] 3) (evalPoly [0, 2] 3) = 0 :=
  ⟨by norm_num [degS, normPoly],
    C1_implicitize_2d_vanishes_on_curve [0, 1] [0, 2]
      (by norm_num [degS, normPoly]) 3⟩

/-! ### Claims C2 and C4: the Bernstein weights -/

theorem getD_map_range {α : Type} (m k : ℕ) (hk : k < m) (g : ℕ → α) (d : α) :
    ((List.range m).map g).getD k d = g k := by
  rw [List.getD_eq_getElem?_getD, List.getElem?_map, List.getElem?_range hk]
  rfl

/-- The curve weights at a natural-number degree, with the integer
plumbing of `pyRange`, `toNat` and `binomZ` resolved. -/
theorem curve_weights_natCast (n : ℕ) :
    curve_weights (n : ℤ) = (List.range (n + 1)).map (fun k =>
      polyMul (polyMul [(n.choose k : ℚ)] (polyPow [0, 1] k))
        (polyPow (polySub [1] [0, 1]) (n - k))) := by
  unfold curve_weights
  rw [show ((n : ℤ) + 1) = ((n + 1 : ℕ) : ℤ) by push_cast; ring,
    pyRange_natCast, List.map_map]
  refine List.map_congr_left fun k hk => ?_
  simp only [List.mem_range] at hk
  simp only [Function.comp_apply]
  have h1 : ((k : ℤ)).toNat = k := by omega
  have h2 : ((n : ℤ) - (k : ℤ)).toNat = n - k := by omega
  rw [h1, h2, binomZ_natCast]

/-- C2: for every non-negative integer degree, `curve_weights` returns a
column of `degree + 1` entries, and entry `k` (in ascending order) is the
Bernstein weight `C(degree, k) · s^k · (1-s)^(degree-k)`. -/
theorem C2_curve_weights (n k : ℕ) (hk : k ≤ n) (s : ℚ) :
    (curve_weights (n : ℤ)).length = n + 1 ∧
      evalPoly ((curve_weights (n : ℤ)).getD k []) s
        = (n.choose k : ℚ) * s ^ k * (1 - s) ^ (n - k) := by
  rw [curve_weights_natCast]
  constructor
  · rw [List.length_map, List.length_range]
  · rw [getD_map_range (n + 1) k (by omega)]
    rw [evalPoly_polyMul, evalPoly_polyMul, evalPoly_const,
      evalPoly_polyPow, evalPoly_polyPow, evalPoly_X, evalPoly_polySub,
      evalPoly_const, evalPoly_X]

/-- C2 (witness): degree 2, entry 1, evaluated at `s = 2`. -/
theorem C2_witness :
    (1 : ℕ) ≤ 2 ∧
      ((curve_weights ((2 : ℕ) : ℤ)).length = 2 + 1 ∧
        evalPoly ((curve_weights ((2 : ℕ) : ℤ)).getD 1 []) 2
          = ((2 : ℕ).choose 1 : ℚ) * 2 ^ 1 * (1 - 2) ^ (2 - 1)) :=
  ⟨by norm_num, C2_curve_weights 2 1 (by norm_num) 2⟩

theorem list_flatMap_congr {α β : Type} (l : List α) (f g : α → List β)
    (h : ∀ a ∈ l, f a = g a) : l.flatMap f = l.flatMap g := by
  induction l with
  | nil => rfl
  | cons a l ih =>
    rw [List.flatMap_cons, List.flatMap_cons, h a (by simp),
      ih fun a ha => h a (by simp [ha])]

theorem list_sum_flatMap {α : Type} (l : List α) (f : α → List ℚ) :
    (l.flatMap f).sum = (l.map (fun a => (f a).sum)).sum := by
  induction l with
  | nil => rfl
  | cons a l ih =>
    rw [List.flatMap_cons, List.sum_append, List.map_cons, List.sum_cons, ih]

/-- The surface weights at a natural-number degree, with the integer
plumbing resolved. -/
theorem surface_weights_natCast (n : ℕ) :
    surface_weights (n : ℤ) = (List.range (n + 1)).flatMap (fun k =>
      (List.range (n + 1 - k)).map (fun j => fun s t =>
        ((n.choose k : ℚ) * ((n - k).choose j : ℚ))
          * (1 - s - t) ^ (n - j - k) * s ^ j * t ^ k)) := by
  unfold surface_weights
  rw [show ((n : ℤ) + 1) = ((n + 1 : ℕ) : ℤ) by push_cast; ring,
    pyRange_natCast, List.flatMap_map]
  refine list_flatMap_congr _ _ _ fun k hk => ?_
  simp only [List.mem_range] at hk
  rw [show ((n : ℤ) - (k : ℤ) + 1) = ((n + 1 - k : ℕ) : ℤ) by omega,
    pyRange_natCast, List.map_map]
  refine List.map_congr_left fun j hj => ?_
  simp only [List.mem_range] at hj
  simp only [Function.comp_apply]
  funext s t
  have h1 : ((n : ℤ) - (j : ℤ) - (k : ℤ)).toNat = n - j - k := by omega
  have h2 : ((j : ℤ)).toNat = j := by omega
  have h3 : ((k : ℤ)).toNat = k := by omega
  rw [h1, h2, h3, show ((n : ℤ) - (k : ℤ)) = ((n - k : ℕ) : ℤ) by omega,
    binomZ_natCast, binomZ_natCast]

/-- C4: partition of unity.  For every non-negative integer degree the
curve weights sum identically to 1, and the surface weights sum
identically to 1, as functions of the parameter values. -/
theorem C4_partition_of_unity :
    (∀ (n : ℕ) (s : ℚ),
        ((curve_weights (n : ℤ)).map (fun p => evalPoly p s)).sum = 1) ∧
      ∀ (n : ℕ) (s t : ℚ),
        ((surface_weights (n : ℤ)).map (fun w => w s t)).sum = 1 := by
  constructor
  · intro n s
    rw [curve_weights_natCast, List.map_map, list_range_map_sum]
    have he : ∀ k ∈ Finset.range (n + 1),
        ((fun p => evalPoly p s) ∘ fun k =>
          polyMul (polyMul [(n.choose k : ℚ)] (polyPow [0, 1] k))
            (polyPow (polySub [1] [0, 1]) (n - k))) k
          = s ^ k * (1 - s) ^ (n - k) * (n.choose k : ℚ) := by
      intro k hk
      simp only [Function.comp_apply]
      rw [evalPoly_polyMul, evalPoly_polyMul, evalPoly_const,
        evalPoly_polyPow, evalPoly_polyPow, evalPoly_X, evalPoly_polySub,
        evalPoly_const, evalPoly_X]
      ring
    rw [Finset.sum_congr rfl he, ← add_pow]
    norm_num
  · intro n s t
    rw [surface_weights_natCast, List.map_flatMap]
    have hmm : ∀ k, List.map (fun w => w s t)
        ((List.range (n + 1 - k)).map (fun j => fun u v =>
          ((n.choose k : ℚ) * ((n - k).choose j : ℚ))
            * (1 - u - v) ^ (n - j - k) * u ^ j * v ^ k))
        = (List.range (n + 1 - k)).map (fun j =>
          ((n.choose k : ℚ) * ((n - k).choose j : ℚ))
            * (1 - s - t) ^ (n - j - k) * s ^ j * t ^ k) := by
      intro k
      rw [List.map_map]
      rfl
    rw [list_flatMap_congr _ _ _ fun k _ => hmm k, list_sum_flatMap,
      list_range_map_sum]
    have he : ∀ k ∈ Finset.range (n + 1),
        ((List.range (n + 1 - k)).map (fun j =>
          ((n.choose k : ℚ) * ((n - k).choose j : ℚ))
            * (1 - s - t) ^ (n - j - k) * s ^ j * t ^ k)).sum
          = t ^ k * (1 - t) ^ (n - k) * (n.choose k : ℚ) := by
      intro k hk
      simp only [Finset.mem_range] at hk
      rw [list_range_map_sum]
      have hin : ∀ j ∈ Finset.range (n + 1 - k),
          ((n.choose k : ℚ) * ((n - k).choose j : ℚ))
              * (1 - s - t) ^ (n - j - k) * s ^ j * t ^ k
            = ((n.choose k : ℚ) * t ^ k)
              * (s ^ j * (1 - s - t) ^ (n - k - j) * ((n - k).choose j : ℚ)) := by
        intro j hj
        have : n - j - k = n - k - j := by omega
        rw [this]
        ring
      rw [Finset.sum_congr rfl hin, ← Finset.mul_sum,
        show n + 1 - k = (n - k) + 1 by omega, ← add_pow,
        show s + (1 - s - t) = 1 - t by ring]
      ring
    rw [Finset.sum_congr rfl he, ← add_pow]
    norm_num

/-! ### Claim C3: surface weight count and ordering -/

/-- Flat position of the weight with outer index `k` and inner index `j`
in the nested iteration order of `surface_weights`: all the inner blocks
for outer indices before `k` (block `i` has `degree + 1 - i` entries),
then `j`. -/
def triIdx (n k j : ℕ) : ℕ :=
  (∑ i ∈ Finset.range k, (n + 1 - i)) + j

theorem flatMap_range_getD {α : Type} (m k j : ℕ) (f : ℕ → List α) (d : α)
    (hk : k < m) (hj : j < (f k).length) :
    ((List.range m).flatMap f).getD
      ((((List.range k).map (fun i => (f i).length)).sum) + j) d
      = (f k).getD j d := by
  rw [show m = k + (m - k) by omega, List.range_add, List.flatMap_append]
  have hlen : ((List.range k).flatMap f).length
      = ((List.range k).map (fun i => (f i).length)).sum := by
    rw [List.length_flatMap]
    exact congrArg List.sum (List.map_congr_left fun a _ => rfl)
  rw [List.getD_append_right _ _ _ _ (by omega)]
  rw [hlen, Nat.add_sub_cancel_left]
  have hmk : m - k = (m - k - 1) + 1 := by omega
  rw [hmk, List.range_succ_eq_map, List.map_cons, List.flatMap_cons]
  rw [show k + 0 = k from rfl]
  exact List.getD_append _ _ _ j hj

/-- C3: `surface_weights` has exactly `(degree+1)(degree+2)/2` entries,
generated with outer index `k` and inner index `j`, and the entry at flat
position `triIdx` is
`C(degree,k) · C(degree-k,j) · (1-s-t)^i · s^j · t^k` with
`i = degree - j - k`. -/
theorem C3_surface_weights (n k j : ℕ) (hk : k ≤ n) (hj : j ≤ n - k)
    (s t : ℚ) :
    (surface_weights (n : ℤ)).length = (n + 1) * (n + 2) / 2 ∧
      ((surface_weights (n : ℤ)).getD (triIdx n k j) (fun _ _ => 0)) s t
        = ((n.choose k : ℚ) * ((n - k).choose j : ℚ))
          * (1 - s - t) ^ (n - j - k) * s ^ j * t ^ k := by
  constructor
  · rw [surface_weights_natCast, List.length_flatMap]
    have h1 : List.map (List.length ∘ fun k =>
          (List.range (n + 1 - k)).map (fun j => fun s t =>
            ((n.choose k : ℚ) * ((n - k).choose j : ℚ))
              * (1 - s - t) ^ (n - j - k) * s ^ j * t ^ k))
          (List.range (n + 1))
        = List.map (fun i => n + 1 - i) (List.range (n + 1)) :=
      List.map_congr_left fun a _ => by
        simp only [Function.comp_apply, List.length_map, List.length_range]
    rw [h1, list_range_map_sum_nat]
    have h2 : ∑ i ∈ Finset.range (n + 1), (n + 1 - i)
        = ∑ i ∈ Finset.range (n + 1), (i + 1) := by
      refine Eq.trans ?_ (Finset.sum_range_reflect (fun i => i + 1) (n + 1))
      refine Finset.sum_congr rfl fun i hi => ?_
      simp only [Finset.mem_range] at hi
      omega
    have h3 : ∀ m : ℕ, (∑ i ∈ Finset.range m, (i + 1)) * 2 = m * (m + 1) := by
      intro m
      induction m with
      | zero => rfl
      | succ m ih =>
        rw [Finset.sum_range_succ, add_mul, ih]
        ring
    have h4 := h3 (n + 1)
    rw [h2]
    generalize hP : (n + 1) * (n + 2) = P at h4 ⊢
    omega
  · rw [surface_weights_natCast]
    have hj2 : j < ((List.range (n + 1 - k)).map (fun j => fun s t =>
        ((n.choose k : ℚ) * ((n - k).choose j : ℚ))
          * (1 - s - t) ^ (n - j - k) * s ^ j * t ^ k)).length := by
      simp only [List.length_map, List.length_range]
      omega
    have h := flatMap_range_getD (n + 1) k j
      (fun k => (List.range (n + 1 - k)).map (fun j => fun s t =>
        ((n.choose k : ℚ) * ((n - k).choose j : ℚ))
          * (1 - s - t) ^ (n - j - k) * s ^ j * t ^ k))
      (fun _ _ => 0) (by omega) hj2
    have hidx : List.map (fun i =>
          ((List.range (n + 1 - i)).map (fun j => fun s t =>
            ((n.choose i : ℚ) * ((n - i).choose j : ℚ))
              * (1 - s - t) ^ (n - j - i) * s ^ j * t ^ i)).length)
          (List.range k)
        = List.map (fun i => n + 1 - i) (List.range k) :=
      List.map_congr_left fun a _ => by
        simp only [List.length_map, List.length_range]
    rw [triIdx, ← list_range_map_sum_nat (fun i => n + 1 - i) k, ← hidx, h,
      getD_map_range (n + 1 - k) j (by omega)]

/-- C3 (witness): degree 2, outer index 1, inner index 1, at `(s, t) = (2, 3)`. -/
theorem C3_witness :
    (1 : ℕ) ≤ 2 ∧ (1 : ℕ) ≤ 2 - 1 ∧
      ((surface_weights ((2 : ℕ) : ℤ)).length = (2 + 1) * (2 + 2) / 2 ∧
        ((surface_weights ((2 : ℕ) : ℤ)).getD (triIdx 2 1 1) (fun _ _ => 0)) 2 3
          = (((2 : ℕ).choose 1 : ℚ) * ((2 - 1 : ℕ).choose 1 : ℚ))
            * (1 - 2 - 3) ^ (2 - 1 - 1) * 2 ^ 1 * 3 ^ 1) :=
  ⟨by norm_num, by norm_num,
    C3_surface_weights 2 1 1 (by norm_num) (by norm_num) 2 3⟩

/-! ### Claim C10: negative degrees -/

/-- C10: neither weight builder validates the degree; for every negative
integer degree the Python loops are empty, so both return an empty weight
vector instead of raising. -/
theorem C10_negative_degree (d : ℤ) (hd : d < 0) :
    curve_weights d = [] ∧ surface_weights d = [] := by
  have h : pyRange (d + 1) = [] := pyRange_nil_of_nonpos _ (by omega)
  constructor
  · unfold curve_weights
    rw [h]
    rfl
  · unfold surface_weights
    rw [h]
    rfl

/-- C10 (witness): degree `-1`. -/
theorem C10_witness : curve_weights (-1) = [] ∧ surface_weights (-1) = [] :=
  C10_negative_degree (-1) (by norm_num)

/-! ### Claim C7: exact conversion of float arrays -/

theorem binary64_aux (m1 e1 m2 e2 : ℤ) (h1 : m1 % 2 = 1) (_h2 : m2 % 2 = 1)
    (hle : e1 ≤ e2) (heq : (m1 : ℚ) * 2 ^ e1 = (m2 : ℚ) * 2 ^ e2) :
    m1 = m2 ∧ e1 = e2 := by
  have h2pos : (2 : ℚ) ^ e1 ≠ 0 := zpow_ne_zero _ (by norm_num)
  set k : ℕ := (e2 - e1).toNat with hk
  have hk2 : e2 = e1 + (k : ℤ) := by omega
  rw [hk2, zpow_add₀ (by norm_num : (2 : ℚ) ≠ 0), zpow_natCast] at heq
  have heq3 : (m1 : ℚ) * 2 ^ e1 = ((m2 : ℚ) * 2 ^ k) * 2 ^ e1 := by
    rw [heq]
    ring
  have heq4 : (m1 : ℚ) = (m2 : ℚ) * 2 ^ k := mul_right_cancel₀ h2pos heq3
  have heq5 : m1 = m2 * 2 ^ k := by exact_mod_cast heq4
  rcases Nat.eq_zero_or_pos k with hk0 | hkpos
  · rw [hk0, pow_zero, mul_one] at heq5
    exact ⟨heq5, by omega⟩
  · exfalso
    have hmod : m1 % 2 = 0 := by
      rw [heq5, show (2 : ℤ) ^ k = 2 ^ (k - 1) * 2 by
        rw [← pow_succ]
        congr 1
        omega, ← mul_assoc]
      exact Int.mul_emod_left _ _
    omega

/-- On canonical representations, the exact rational value determines the
binary64 value: rounding the exact fraction back to floating point
reproduces the original bit for bit. -/
theorem binary64_canonical_inj (v w : Binary64) (hv : v.canonical)
    (hw : w.canonical) (h : v.toRat = w.toRat) : v = w := by
  have hzero : ∀ u : Binary64, u.toRat = 0 → u.mantissa = 0 := by
    intro u hu
    unfold Binary64.toRat at hu
    have h2 : (2 : ℚ) ^ u.exponent ≠ 0 := zpow_ne_zero _ (by norm_num)
    have : (u.mantissa : ℚ) = 0 := (mul_eq_zero.mp hu).resolve_right h2
    exact_mod_cast this
  rcases hv with ⟨hm, he⟩ | hv1
  · rcases hw with ⟨hm2, he2⟩ | hw1
    · cases v
      cases w
      simp_all
    · exfalso
      have hv0 : v.toRat = 0 := by simp [Binary64.toRat, hm]
      have : w.mantissa = 0 := hzero w (by rw [← h, hv0])
      omega
  · rcases hw with ⟨hm2, he2⟩ | hw1
    · exfalso
      have hw0 : w.toRat = 0 := by simp [Binary64.toRat, hm2]
      have : v.mantissa = 0 := hzero v (by rw [h, hw0])
      omega
    · unfold Binary64.toRat at h
      rcases le_total v.exponent w.exponent with hle | hle
      · obtain ⟨hm, he⟩ :=
          binary64_aux v.mantissa v.exponent w.mantissa w.exponent hv1 hw1 hle h
        cases v
        cases w
        simp_all
      · obtain ⟨hm, he⟩ :=
          binary64_aux w.mantissa w.exponent v.mantissa v.exponent hw1 hv1 hle
            h.symm
        cases v
        cases w
        simp_all

/-- C7: `to_symbolic` fails with `InvalidShape` carrying the actual rank
whenever the rank is not 2; otherwise it returns the matrix of exact
rational values of the entries, with identical shape; and on canonical
binary64 representations the exact rational determines the float bit for
bit, so converting each entry back to floating point reproduces the
original array. -/
theorem C7_to_symbolic (nodes : NDArray) (v w : Binary64)
    (hv : v.canonical) (hw : w.canonical) (hvw : v.toRat = w.toRat) :
    (nodes.ndim ≠ 2 → to_symbolic nodes = .error (.invalidShape nodes.ndim)) ∧
      (nodes.ndim = 2 →
        to_symbolic nodes
            = .ok (nodes.rows.map (fun row => row.map Binary64.toRat)) ∧
          (nodes.rows.map (fun row => row.map Binary64.toRat)).length
            = nodes.rows.length ∧
          ∀ i, ((nodes.rows.map (fun row => row.map Binary64.toRat)).getD
              i []).length = (nodes.rows.getD i []).length) ∧
      v = w := by
  refine ⟨fun hne => ?_, fun h2 => ⟨?_, List.length_map _ _, fun i => ?_⟩,
    binary64_canonical_inj v w hv hw hvw⟩
  · unfold to_symbolic
    rw [if_pos hne]
  · unfold to_symbolic
    rw [if_neg (by omega)]
  · rw [List.getD_eq_getElem?_getD, List.getElem?_map,
      List.getD_eq_getElem?_getD]
    rcases h : nodes.rows[i]? with _ | row
    · simp
    · simp [List.length_map]

/-! ### The structural layer: sympy call structure

Every public function of the module is embedded once more, this time
keeping the sympy expressions as trees that record exactly which sympy
operations are applied to which arguments.  `resultant` and `factor` are
tree nodes (their algebraic meaning is interpreted only at the semantic
layer), a sympy symbol is its name string (sympy interns symbols by name:
two `Symbol` calls with the same name yield the same symbol), and the
`require_sympy` decorator is the availability guard that every public
entry point passes through before doing anything else. -/

namespace Sym

/-- A sympy expression tree, as built by the module: exact rational
constants, named symbols, arithmetic, integer powers, resultants with
respect to a named symbol, and the `factor` / `simplify` calls. -/
inductive Expr : Type where
  | const : ℚ → Expr
  | sym : String → Expr
  | add : Expr → Expr → Expr
  | sub : Expr → Expr → Expr
  | mul : Expr → Expr → Expr
  | pow : Expr → ℤ → Expr
  | resultant : Expr → Expr → String → Expr
  | factor : Expr → Expr
  | simplify : Expr → Expr
deriving DecidableEq

/-- The `require_sympy` decorator: if sympy is unavailable the call fails
with `OSError` before the wrapped body runs; otherwise the body runs
unchanged. -/
def require_sympy {α : Type} (sympyOk : Bool)
    (wrapped : Unit → Except SymErr α) : Except SymErr α :=
  match sympyOk with
  | true => wrapped ()
  | false => .error .engineUnavailable

/-- Structural `to_symbolic`: rank check, then each float becomes the
exact rational constant `sympy.Rational(value)`. -/
def to_symbolic (sympyOk : Bool) (nodes : NDArray) :
    Except SymErr (List (List Expr)) :=
  require_sympy sympyOk fun _ =>
    if nodes.ndim ≠ 2 then .error (.invalidShape nodes.ndim)
    else .ok (nodes.rows.map fun row => row.map fun v => .const v.toRat)

/-- Structural `curve_weights`: the expression
`binomial(degree, k) * s ** k * (1 - s) ** (degree - k)` for each `k` in
`range(degree + 1)`. -/
def curve_weights (sympyOk : Bool) (degree : ℤ) (s : String) :
    Except SymErr (List Expr) :=
  require_sympy sympyOk fun _ =>
    .ok ((pyRange (degree + 1)).map fun k =>
      .mul (.mul (.const (binomZ degree k)) (.pow (.sym s) k))
        (.pow (.sub (.const 1) (.sym s)) (degree - k)))

/-- Product of the node matrix with a weight column; sympy raises
`ShapeError` when the column counts disagree. -/
def matVecMul (m : List (List Expr)) (w : List Expr) :
    Except SymErr (List Expr) :=
  if m.all (fun row => row.length = w.length) then
    .ok (m.map fun row =>
      (List.zipWith Expr.mul row w).foldl Expr.add (Expr.const 0))
  else .error .shapeMismatch

/-- Structural `curve_as_polynomial`: convert the nodes, create the symbol
named `s`, multiply by the weights, then `simplify` and `factor` each
entry; returns the symbol together with the polynomial vector. -/
def curve_as_polynomial (sympyOk : Bool) (nodes : NDArray) (degree : ℤ) :
    Except SymErr (String × List Expr) :=
  require_sympy sympyOk fun _ =>
    match to_symbolic sympyOk nodes with
    | .error e => .error e
    | .ok nodes_sym =>
      match curve_weights sympyOk degree "s" with
      | .error e => .error e
      | .ok w =>
        match matVecMul nodes_sym w with
        | .error e => .error e
        | .ok b => .ok ("s", b.map fun e => .factor (.simplify e))

/-- Structural `implicitize_2d`: create the ambient symbols named `x` and
`y`, and return the factored resultant of `x_fn - x` and `y_fn - y` with
respect to `s`. -/
def implicitize_2d (sympyOk : Bool) (x_fn y_fn : Expr) (s : String) :
    Except SymErr Expr :=
  require_sympy sympyOk fun _ =>
    .ok (.factor (.resultant (.sub x_fn (.sym "x")) (.sub y_fn (.sym "y")) s))

/-- Structural `implicitize_curve`: assemble the curve polynomial,
tuple-unpack its two components, and implicitize. -/
def implicitize_curve (sympyOk : Bool) (nodes : NDArray) (degree : ℤ) :
    Except SymErr Expr :=
  require_sympy sympyOk fun _ =>
    match curve_as_polynomial sympyOk nodes degree with
    | .error e => .error e
    | .ok sb =>
      match sb.2 with
      | [x_fn, y_fn] => implicitize_2d sympyOk x_fn y_fn sb.1
      | _ => .error .unpackMismatch

/-- Structural `surface_weights`: barycentric λ-expressions and the nested
loop over `k` and `j`; each coefficient `coeff_k * binomial(degree-k, j)`
is a single exact number. -/
def surface_weights (sympyOk : Bool) (degree : ℤ) (s t : String) :
    Except SymErr (List Expr) :=
  require_sympy sympyOk fun _ =>
    let lambda1 := Expr.sub (.sub (.const 1) (.sym s)) (.sym t)
    let lambda2 := Expr.sym s
    let lambda3 := Expr.sym t
    .ok ((pyRange (degree + 1)).flatMap fun k =>
      (pyRange (degree - k + 1)).map fun j =>
        .mul (.mul (.mul (.const (binomZ degree k * binomZ (degree - k) j))
          (.pow lambda1 (degree - j - k))) (.pow lambda2 j)) (.pow lambda3 k))

/-- Structural `surface_as_polynomial`: like the curve version but with
the two symbols named `s` and `t`. -/
def surface_as_polynomial (sympyOk : Bool) (nodes : NDArray) (degree : ℤ) :
    Except SymErr (String × String × List Expr) :=
  require_sympy sympyOk fun _ =>
    match to_symbolic sympyOk nodes with
    | .error e => .error e
    | .ok nodes_sym =>
      match surface_weights sympyOk degree "s" "t" with
      | .error e => .error e
      | .ok w =>
        match matVecMul nodes_sym w with
        | .error e => .error e
        | .ok b => .ok ("s", "t", b.map fun e => .factor (.simplify e))

/-- Structural `implicitize_3d`: create the ambient symbols named `x`,
`y`, `z`; eliminate `s` via `f_xy = resultant(x_fn - x, y_fn - y, s)` and
`f_yz = resultant(y_fn - x, z_fn - z, s)` — the second resultant subtracts
the ambient symbol `x`, not `y`, exactly as the source does — then return
the factored resultant of `f_xy` and `f_yz` with respect to `t`. -/
def implicitize_3d (sympyOk : Bool) (x_fn y_fn z_fn : Expr) (s t : String) :
    Except SymErr Expr :=
  require_sympy sympyOk fun _ =>
    let f_xy := Expr.resultant (.sub x_fn (.sym "x")) (.sub y_fn (.sym "y")) s
    let f_yz := Expr.resultant (.sub y_fn (.sym "x")) (.sub z_fn (.sym "z")) s
    .ok (.factor (.resultant f_xy f_yz t))

/-- Structural `implicitize_surface`: assemble the surface polynomial,
tuple-unpack its three components, and implicitize. -/
def implicitize_surface (sympyOk : Bool) (nodes : NDArray) (degree : ℤ) :
    Except SymErr Expr :=
  require_sympy sympyOk fun _ =>
    match surface_as_polynomial sympyOk nodes degree with
    | .error e => .error e
    | .ok stb =>
      match stb.2.2 with
      | [x_fn, y_fn, z_fn] =>
        implicitize_3d sympyOk x_fn y_fn z_fn stb.1 stb.2.1
      | _ => .error .unpackMismatch

end Sym

/-! ### Claim C5: the 3D implicitization call structure -/

/-- C5: `implicitize_3d` first computes
`f_xy = resultant(x_fn - x, y_fn - y, s)` and
`f_yz = resultant(y_fn - x, z_fn - z, s)` — the second resultant subtracts
the ambient symbol `x`, not `y`, from `y_fn` — and returns the factored
`resultant(f_xy, f_yz, t)`: `s` is eliminated first, then `t`, with
exactly this asymmetric substitution. -/
theorem C5_implicitize_3d (x_fn y_fn z_fn : Sym.Expr) (s t : String) :
    Sym.implicitize_3d true x_fn y_fn z_fn s t
      = .ok (.factor (.resultant
          (.resultant (.sub x_fn (.sym "x")) (.sub y_fn (.sym "y")) s)
          (.resultant (.sub y_fn (.sym "x")) (.sub z_fn (.sym "z")) s)
          t)) := rfl

/-! ### Claim C8: the engine availability guard -/

/-- C8: with the engine unavailable, every one of the nine public
operations fails with `EngineUnavailable` for every argument list, before
any argument validation (no rank check, no shape check, no computation);
with the engine available, `require_sympy` runs the guarded body
unchanged. -/
theorem C8_engine_guard :
    (∀ (α : Type) (body : Unit → Except SymErr α),
        Sym.require_sympy false body = .error .engineUnavailable) ∧
      (∀ (α : Type) (body : Unit → Except SymErr α),
        Sym.require_sympy true body = body ()) ∧
      (∀ nodes, Sym.to_symbolic false nodes = .error .engineUnavailable) ∧
      (∀ degree s,
        Sym.curve_weights false degree s = .error .engineUnavailable) ∧
      (∀ nodes degree,
        Sym.curve_as_polynomial false nodes degree
          = .error .engineUnavailable) ∧
      (∀ x_fn y_fn s,
        Sym.implicitize_2d false x_fn y_fn s = .error .engineUnavailable) ∧
      (∀ nodes degree,
        Sym.implicitize_curve false nodes degree
          = .error .engineUnavailable) ∧
      (∀ degree s t,
        Sym.surface_weights false degree s t = .error .engineUnavailable) ∧
      (∀ nodes degree,
        Sym.surface_as_polynomial false nodes degree
          = .error .engineUnavailable) ∧
      (∀ x_fn y_fn z_fn s t,
        Sym.implicitize_3d false x_fn y_fn z_fn s t
          = .error .engineUnavailable) ∧
      ∀ nodes degree,
        Sym.implicitize_surface false nodes degree
          = .error .engineUnavailable :=
  ⟨fun _ _ => rfl, fun _ _ => rfl, fun _ => rfl, fun _ _ => rfl,
    fun _ _ => rfl, fun _ _ _ => rfl, fun _ _ => rfl, fun _ _ _ => rfl,
    fun _ _ => rfl, fun _ _ _ _ _ => rfl, fun _ _ => rfl⟩

/-! ### Claim C9: symbol identity across calls -/

/-- A 2 × 1 node array (one control point of a degree-0 curve in the
plane), used as concrete input. -/
def sampleNodesA : NDArray := ⟨2, [[⟨0, 0⟩], [⟨1, 0⟩]]⟩

/-- A different 2 × 2 node array (a degree-1 curve), used as a second,
distinct concrete input. -/
def sampleNodesB : NDArray := ⟨2, [[⟨0, 0⟩, ⟨1, 0⟩], [⟨0, 0⟩, ⟨1, 1⟩]]⟩

/-- C9 (counterexample): two distinct calls of `curve_as_polynomial`, on
different node arrays and degrees, return the identical symbol — the
symbol named `s` — because sympy symbols are interned by name and the
source always uses the same fixed names.  This contradicts the claim that
no symbol identity is shared between distinct calls. -/
theorem C9_counterexample :
    (Sym.curve_as_polynomial true sampleNodesA 0).map Prod.fst
        = Except.ok "s" ∧
      (Sym.curve_as_polynomial true sampleNodesB 1).map Prod.fst
        = Except.ok "s" :=
  ⟨rfl, rfl⟩

/-- C9 (amended): the symbols are deterministic, not fresh: every
successful `curve_as_polynomial` call returns the symbol named `s` (so any
two calls share it), every successful `surface_as_polynomial` call returns
the symbols named `s` and `t`, `implicitize_2d` always uses the ambient
symbols named `x` and `y`, and `implicitize_3d` always uses the ambient
symbols named `x`, `y`, `z` (with its `s`-eliminating resultants reusing
the ambient `x`); within a single composed computation this reuse is what
keeps the symbols consistent. -/
theorem C9_symbols_deterministic :
    (∀ (ok : Bool) (n1 n2 : NDArray) (d1 d2 : ℤ)
        (p1 p2 : String × List Sym.Expr),
        Sym.curve_as_polynomial ok n1 d1 = .ok p1 →
          Sym.curve_as_polynomial ok n2 d2 = .ok p2 →
            p1.1 = "s" ∧ p1.1 = p2.1) ∧
      (∀ (ok : Bool) (n : NDArray) (d : ℤ)
        (p : String × String × List Sym.Expr),
        Sym.surface_as_polynomial ok n d = .ok p →
          p.1 = "s" ∧ p.2.1 = "t") ∧
      (∀ (x_fn y_fn : Sym.Expr) (s : String),
        Sym.implicitize_2d true x_fn y_fn s
          = .ok (.factor (.resultant (.sub x_fn (.sym "x"))
              (.sub y_fn (.sym "y")) s))) ∧
      ∀ (x_fn y_fn z_fn : Sym.Expr) (s t : String),
        Sym.implicitize_3d true x_fn y_fn z_fn s t
          = .ok (.factor (.resultant
              (.resultant (.sub x_fn (.sym "x")) (.sub y_fn (.sym "y")) s)
              (.resultant (.sub y_fn (.sym "x")) (.sub z_fn (.sym "z")) s)
              t)) := by
  have hcurve : ∀ (ok : Bool) (n : NDArray) (d : ℤ)
      (p : String × List Sym.Expr),
      Sym.curve_as_polynomial ok n d = .ok p → p.1 = "s" := by
    intro ok n d p h
    cases ok
    · simp [Sym.curve_as_polynomial, Sym.require_sympy] at h
    · unfold Sym.curve_as_polynomial Sym.require_sympy at h
      repeat' split at h
      all_goals try (injection h with h; subst h)
      all_goals simp_all
  refine ⟨fun ok n1 n2 d1 d2 p1 p2 h1 h2 => ⟨hcurve ok n1 d1 p1 h1, ?_⟩,
    fun ok n d p h => ?_, fun _ _ _ => rfl, fun _ _ _ _ _ => rfl⟩
  · rw [hcurve ok n1 d1 p1 h1, hcurve ok n2 d2 p2 h2]
  · cases ok
    · simp [Sym.surface_as_polynomial, Sym.require_sympy] at h
    · unfold Sym.surface_as_polynomial Sym.require_sympy at h
      repeat' split at h
      all_goals try (injection h with h; subst h)
      all_goals simp_all

/-- C9 (witness for the amended theorem): a concrete successful call whose
symbol is `s`. -/
theorem C9_witness :
    (Sym.curve_as_polynomial true sampleNodesA 0).map Prod.fst
      = Except.ok "s" := by
  obtain ⟨p, hp⟩ : ∃ p, Sym.curve_as_polynomial true sampleNodesA 0 = .ok p :=
    ⟨_, rfl⟩
  rw [hp]
  have hs :=
    (C9_symbols_deterministic.1 true sampleNodesA sampleNodesA 0 0 p p hp hp).1
  simp [Except.map, hs]

/-! ### Claim C6: composition law for curve implicitization -/

/-- The composition described by the spec: obtain the curve polynomial via
`curve_as_polynomial`, then hand its two coordinate components (and the
parameter symbol) to `implicitize_2d`. -/
def implicitizeCurve_viaChain (nodes : NDArray) (degree : ℤ) :
    Except SymErr (ℚ → ℚ → ℚ) :=
  match curve_as_polynomial nodes degree with
  | .error e => .error e
  | .ok b =>
    if b.length = 2 then .ok (implicitize_2d (b.getD 0 []) (b.getD 1 []))
    else .error .unpackMismatch

/-- C6: for every node array that yields a valid 2D curve polynomial (two
coordinate components), `implicitize_curve` returns exactly
`implicitize_2d` applied to the two components of `curve_as_polynomial`,
i.e. it agrees with the manually chained computation. -/
theorem C6_composition (nodes : NDArray) (degree : ℤ) (b : List (List ℚ))
    (hb : curve_as_polynomial nodes degree = .ok b) (h2 : b.length = 2) :
    implicitize_curve nodes degree
        = .ok (implicitize_2d (b.getD 0 []) (b.getD 1 [])) ∧
      implicitize_curve nodes degree
        = implicitizeCurve_viaChain nodes degree := by
  obtain ⟨x_fn, y_fn, rfl⟩ : ∃ x_fn y_fn, b = [x_fn, y_fn] := by
    rcases b with _ | ⟨x_fn, b⟩
    · simp at h2
    rcases b with _ | ⟨y_fn, b⟩
    · simp at h2
    rcases b with _ | ⟨z_fn, b⟩
    · exact ⟨x_fn, y_fn, rfl⟩
    · simp at h2
  unfold implicitize_curve implicitizeCurve_viaChain
  rw [hb]
  exact ⟨rfl, rfl⟩

/-- C6 (witness): the 2 × 1 array `sampleNodesA` at degree 0 assembles to
the constant curve polynomial `([0], [1])`, and the composed and chained
implicitizations agree on it. -/
theorem C6_witness :
    curve_as_polynomial sampleNodesA 0 = .ok [[0], [1]] ∧
      ([[0], [1]] : List (List ℚ)).length = 2 ∧
      (implicitize_curve sampleNodesA 0
          = .ok (implicitize_2d (([[0], [1]] : List (List ℚ)).getD 0 [])
              (([[0], [1]] : List (List ℚ)).getD 1 [])) ∧
        implicitize_curve sampleNodesA 0
          = implicitizeCurve_viaChain sampleNodesA 0) := by
  have hbind : ∀ {α β : Type} (a : α) (f : α → Except SymErr β),
      (Except.ok a >>= f) = f a := fun _ _ => rfl
  have hb : curve_as_polynomial sampleNodesA 0 = .ok [[0], [1]] := by
    norm_num [curve_as_polynomial, to_symbolic, matVecMulQ, curve_weights,
      pyRange, binomZ, Binary64.toRat, polyMul, polyAdd, polyNeg, polySub,
      polyPow, sampleNodesA, List.zipWith, Nat.factorial, hbind,
      Function.comp]
  exact ⟨hb, rfl, C6_composition sampleNodesA 0 [[0], [1]] hb rfl⟩

/-- A canonical binary64 value: the IEEE double closest to one tenth,
`3602879701896397 · 2⁻⁵⁵`. -/
def sampleFloat : Binary64 := ⟨3602879701896397, -55⟩

/-- C7 (witness): the rank-2 array `sampleNodesA` converts exactly, and
the canonical float `sampleFloat` round-trips bit for bit. -/
theorem C7_witness :
    sampleFloat.canonical ∧
      ((sampleNodesA.ndim ≠ 2 →
          to_symbolic sampleNodesA
            = .error (.invalidShape sampleNodesA.ndim)) ∧
        (sampleNodesA.ndim = 2 →
          to_symbolic sampleNodesA
              = .ok (sampleNodesA.rows.map
                  (fun row => row.map Binary64.toRat)) ∧
            (sampleNodesA.rows.map
                (fun row => row.map Binary64.toRat)).length
              = sampleNodesA.rows.length ∧
            ∀ i, ((sampleNodesA.rows.map
                (fun row => row.map Binary64.toRat)).getD i []).length
              = (sampleNodesA.rows.getD i []).length) ∧
        sampleFloat = sampleFloat) :=
  ⟨Or.inr (by norm_num [sampleFloat]),
    C7_to_symbolic sampleNodesA sampleFloat sampleFloat
      (Or.inr (by norm_num [sampleFloat]))
      (Or.inr (by norm_num [sampleFloat])) rfl⟩
